import Mathlib

/- Verification of the cyclus IsoVector composition/decay-chain engine
   against its design description.

   The shallow embedding follows src/src/Resources/IsoVector.h: the header
   defines the data model (struct composition with fields ID,
   mass_fractions, mass_normalizer, atom_normalizer, parent, decay_time;
   CompMap; the recipe and decay-chain containers; the tolerances EPS_KG =
   1e-6 and EPS_PERCENT = 1e-14) and declares every operation.  The bodies
   of the operations live in an implementation file that is not part of
   the source tree, so each operation body below is modelled from the
   specification text, as noted in its doc comment.  Doubles are embedded
   as exact rationals; C++ int becomes Int; the composition* pointers of
   the recipe registry and decay-chain cache become indices into an
   explicit arena, following the design note that recommends an
   arena+index representation of the shared compositions. -/

/-- Isotope identifier in ZZZAAA encoding (source: typedef int Iso). -/
abbrev Iso := Int

/-- Mapping of isotope identifier to a mass or atom value
    (source: typedef std::map of Iso to double, CompMap). -/
abbrev CompMap := List (Iso × ℚ)

/-- Tolerance EPS_KG = 1e-6, the smallest kilogram value (source header). -/
def EPS_KG : ℚ := 1 / 1000000

/-- Tolerance EPS_PERCENT = 1e-14, the smallest percent (source header). -/
def EPS_PERCENT : ℚ := 1 / 100000000000000

/-- Atomic number Z of a ZZZAAA isotope identifier: id / 1000 with C++
    truncating integer division. -/
def getAtomicNum (tope : Iso) : Int := tope.tdiv 1000

/-- Mass number A of a ZZZAAA isotope identifier: id mod 1000 with C++
    truncating remainder. -/
def getMassNum (tope : Iso) : Int := tope.tmod 1000

/-- Lookup of an isotope's stored value in a CompMap; 0 when absent. -/
def lookupQ : CompMap → Iso → ℚ
  | [], _ => 0
  | p :: rest, i => if p.1 = i then p.2 else lookupQ rest i

/-- Keys (isotope identifiers) of a CompMap. -/
def keysOf (m : CompMap) : List Iso := m.map Prod.fst

/-- Sum of the stored values of a CompMap. -/
def sumValues : CompMap → ℚ
  | [] => 0
  | p :: rest => p.2 + sumValues rest

/-- Sum of value / massNumber over a CompMap, the atom normalizer of a
    mass-basis map (spec: atomNormalizer = sum of massFraction[i] divided
    by massNumber(i)). -/
def sumAtomValues : CompMap → ℚ
  | [] => 0
  | p :: rest => p.2 / (getMassNum p.1 : ℚ) + sumAtomValues rest

/-- Map with every stored value multiplied by a factor. -/
def scaleMap (f : ℚ) (m : CompMap) : CompMap :=
  m.map (fun p => (p.1, p.2 * f))

/-- CompMap built over an explicit support list from a value function. -/
def mkMapOn (l : List Iso) (f : Iso → ℚ) : CompMap :=
  l.map (fun i => (i, f i))

/-- Sum of a value function over a support list. -/
def sumOver : List Iso → (Iso → ℚ) → ℚ
  | [], _ => 0
  | i :: rest, f => f i + sumOver rest f

/-- Container fully describing an isovector's composition
    (source: struct composition).  The parent back-reference is an arena
    index, per the design note on arena+index representation. -/
structure composition where
  ID : Int
  mass_fractions : CompMap
  mass_normalizer : ℚ
  atom_normalizer : ℚ
  parent : Option Nat
  decay_time : Int
deriving DecidableEq

/-- Source: the composition constructor sets ID = 0, parent = 0 and
    decay_time = 0 and takes the fraction map and the two normalizers;
    here the normalizers are computed as the spec's construct does:
    massNormalizer is the sum of the entries, atomNormalizer the sum of
    entry / massNumber. -/
def mkComposition (m : CompMap) : composition :=
  { ID := 0, mass_fractions := m, mass_normalizer := sumValues m,
    atom_normalizer := sumAtomValues m, parent := none, decay_time := 0 }

/-- Source: composition::logged() returns ID > 0. -/
def loggedComposition (c : composition) : Bool := decide (0 < c.ID)

/-- Placeholder composition used for out-of-range arena reads. -/
def defaultComp : composition := mkComposition []

/-- Mass fraction of an isotope in a composition.  Modelled from the
    spec: fractions[tope] / massNormalizer, 0 if absent. -/
def massFraction (c : composition) (tope : Iso) : ℚ :=
  lookupQ c.mass_fractions tope / c.mass_normalizer

/-- Per-isotope quantity of a composition, the notion the spec's
    arithmetic uses.  Modelled from the spec: a.fraction[i] *
    a.massNormalizer, i.e. the stored entry recovered through the
    normalizer. -/
def quantity (c : composition) (tope : Iso) : ℚ :=
  massFraction c tope * c.mass_normalizer

/-- Sum of massFraction over the keys of a composition. -/
def sumMassFracs (c : composition) : ℚ :=
  sumOver (keysOf c.mass_fractions) (massFraction c)

/-- Modelled from the spec (minimize, body missing from the source):
    rescales every entry by 1 / massNormalizer so the normalizer becomes
    exactly 1. -/
def minimizeComposition (c : composition) : composition :=
  { c with mass_fractions := scaleMap (1 / c.mass_normalizer) c.mass_fractions,
           mass_normalizer := 1 }

/-- Modelled from the spec (multMassNormBy, body missing from the
    source; the header documents it as multiplying the mass normalizer by
    a factor, used by the multiplication operators): a new composition
    whose mass normalizer is scaled, all other fields unchanged (the
    spec's copy-on-write rule forbids editing the shared composition). -/
def multMassNormBy (c : composition) (factor : ℚ) : composition :=
  { c with mass_normalizer := c.mass_normalizer * factor }

/-- Union of the isotopes present in either of two compositions. -/
def unionSupport (a b : composition) : List Iso :=
  (keysOf a.mass_fractions ++ keysOf b.mass_fractions).dedup

/-- Modelled from the spec (add, body missing from the source), before
    the final minimize: for the union of isotopes the quantity is the sum
    of the two per-isotope quantities, the new normalizer is the sum of
    all quantities, stateId = 0. -/
def addRawComp (a b : composition) : composition :=
  mkComposition (mkMapOn (unionSupport a b) (fun i => quantity a i + quantity b i))

/-- Modelled from the spec (add): the quantity-sum composition,
    minimized. -/
def addComp (a b : composition) : composition :=
  minimizeComposition (addRawComp a b)

/-- Modelled from the spec (subtract, body missing from the source),
    before the tolerance check and the final minimize: the per-isotope
    quantity-difference composition. -/
def subRawComp (a b : composition) : composition :=
  mkComposition (mkMapOn (unionSupport a b) (fun i => quantity a i - quantity b i))

/-- Error taxonomy of the spec. -/
inductive CoreError where
  | invalidIsotope (tope : Iso)
  | negativeFraction (q : ℚ)
  | rangeError
  | unknownRecipe
  | duplicateRecipe
deriving DecidableEq

/-- Modelled from the spec (subtract): quantity-subtract; fails
    RangeError if any resulting per-isotope quantity is below -EPS_KG;
    otherwise the difference composition, minimized. -/
def subtractComp (a b : composition) : Except CoreError composition :=
  if (unionSupport a b).all (fun i => decide (-EPS_KG ≤ quantity a i - quantity b i)) then
    Except.ok (minimizeComposition (subRawComp a b))
  else
    Except.error CoreError.rangeError

/-- Modelled from the spec (equals): true iff for every isotope present
    in either composition the per-isotope quantities differ by at most
    EPS_KG. -/
def equalsComp (a b : composition) : Bool :=
  (unionSupport a b).all (fun i => decide (|quantity a i - quantity b i| ≤ EPS_KG))

/-- Validity of an isotope identifier.  Modelled from the spec
    (validateIsotopeNumber, body missing from the source): valid iff
    1 <= atomicNumber <= 103 and massNumber >= atomicNumber. -/
def validIso (tope : Iso) : Bool :=
  decide (1 ≤ getAtomicNum tope) && decide (getAtomicNum tope ≤ 103) &&
    decide (getAtomicNum tope ≤ getMassNum tope)

/-- Modelled from the spec (validateComposition: validateIsotopeNumber
    then validateFraction for each entry): first failure wins. -/
def validateEntries : CompMap → Except CoreError Unit
  | [] => Except.ok ()
  | p :: rest =>
    if validIso p.1 then
      if p.2 < 0 then Except.error (CoreError.negativeFraction p.2)
      else validateEntries rest
    else Except.error (CoreError.invalidIsotope p.1)

/-- Sum of value * massNumber over a CompMap, the total weight of an
    atom-basis map. -/
def sumWeighted : CompMap → ℚ
  | [] => 0
  | p :: rest => p.2 * (getMassNum p.1 : ℚ) + sumWeighted rest

/-- Modelled from the spec (atom-to-mass conversion): massFraction[i] =
    atomFraction[i] * massNumber(i) / sum over j of atomFraction[j] *
    massNumber(j). -/
def massify (m : CompMap) : CompMap :=
  m.map (fun p => (p.1, p.2 * (getMassNum p.1 : ℚ) / sumWeighted m))

/-- Modelled from the spec (construct): validates every isotope
    identifier and every quantity, converts an atom-basis map to mass
    basis, and computes the two normalizers. -/
def construct (m : CompMap) (atomBasis : Bool) : Except CoreError composition :=
  match validateEntries m with
  | Except.error e => Except.error e
  | Except.ok _ => Except.ok (mkComposition (if atomBasis then massify m else m))

/-- Process-wide state of the core: the composition arena (shared
    storage for interned/cached compositions, per the design note), the
    single monotonic state-ID counter (spec: starting at 1), the recipe
    registry, the decay-chain cache mapping (parent index, elapsed time)
    to the daughter's index, the log of external DecaySolver invocations,
    the rows forwarded to the persistence sink, and the ordered log of
    every state ID handed out. -/
structure CoreState where
  arena : List composition
  nextStateID : Int
  recipes : List (String × Nat)
  cache : List ((Nat × Int) × Nat)
  solverLog : List (Nat × Int)
  sink : List (Int × Iso × ℚ)
  assigned : List Int
deriving DecidableEq

/-- Initial state of a run: empty containers, counter at 1 (spec:
    single process-wide monotonic counter starting at 1). -/
def initState : CoreState :=
  { arena := [], nextStateID := 1, recipes := [], cache := [],
    solverLog := [], sink := [], assigned := [] }

/-- Arena read with a default for out-of-range indices. -/
def arenaGet (s : CoreState) (h : Nat) : composition :=
  (s.arena[h]?).getD defaultComp

/-- Modelled from the spec: every ID-assigning consumer draws
    stateId = nextId++ from the one shared counter; the handed-out ID is
    also appended to the ghost log of assignments. -/
def freshID (s : CoreState) : Int × CoreState :=
  (s.nextStateID,
   { s with nextStateID := s.nextStateID + 1,
            assigned := s.assigned ++ [s.nextStateID] })

/-- Rows forwarded to the persistence sink for one composition:
    (stateId, isotopeId, fraction) triples. -/
def sinkRows (id : Int) (m : CompMap) : List (Int × Iso × ℚ) :=
  m.map (fun p => (id, p.1, p.2))

/-- Modelled from the spec (recordState, body missing from the source):
    if the composition's stateId is 0, assigns a fresh ID from the shared
    counter, forwards the rows to the persistence sink and reports true;
    an already-logged composition is left alone and reported false. -/
def recordState (s : CoreState) (h : Nat) : Bool × CoreState :=
  let c := arenaGet s h
  if c.ID = 0 then
    let r := freshID s
    (true,
     { r.2 with arena := r.2.arena.set h { c with ID := r.1 },
                sink := r.2.sink ++ sinkRows r.1 c.mass_fractions })
  else
    (false, s)

/-- Association lookup in the decay-chain cache. -/
def lookupCache : List ((Nat × Int) × Nat) → Nat × Int → Option Nat
  | [], _ => none
  | p :: rest, key => if p.1 = key then some p.2 else lookupCache rest key

/-- Number of times a (parent, elapsed time) key occurs in the solver
    invocation log. -/
def countKey : List (Nat × Int) → Nat × Int → Nat
  | [], _ => 0
  | x :: rest, k => (if x = k then 1 else 0) + countKey rest k

/-- Normalizer-divided fraction map of a composition, the form handed
    to the external DecaySolver (spec: parent.fractions-normalized). -/
def normalizedFractions (c : composition) : CompMap :=
  c.mass_fractions.map (fun p => (p.1, p.2 / c.mass_normalizer))

/-- Modelled from the spec (Daughter / getOrComputeDaughter, body
    missing from the source): if the (parent, elapsedTime) key was
    computed before, the existing daughter is returned unchanged;
    otherwise the external solver is invoked once, a new composition with
    parent set, decayTime set and stateId 0 is appended to the arena,
    the cache is extended under the key, and the new daughter returned. -/
def getOrComputeDaughter (solver : CompMap → Int → CompMap)
    (s : CoreState) (p : Nat) (t : Int) : Nat × CoreState :=
  match lookupCache s.cache (p, t) with
  | some d => (d, s)
  | none =>
      let parentC := arenaGet s p
      let m := solver (normalizedFractions parentC) t
      let child : composition :=
        { ID := 0, mass_fractions := m, mass_normalizer := sumValues m,
          atom_normalizer := sumAtomValues m, parent := some p, decay_time := t }
      (s.arena.length,
       { s with arena := s.arena ++ [child],
                cache := s.cache ++ [((p, t), s.arena.length)],
                solverLog := s.solverLog ++ [(p, t)] })

/-- Modelled from the spec (RecipeRegistry load): duplicate names are
    refused, the composition is built by construct, given a fresh state
    ID from the shared counter and stored under the name; a failure
    leaves the state unchanged. -/
def loadRecipe (s : CoreState) (name : String) (m : CompMap)
    (atomBasis : Bool) : CoreState :=
  if (s.recipes.map Prod.fst).contains name then s
  else
    match construct m atomBasis with
    | Except.error _ => s
    | Except.ok c =>
        let r := freshID s
        { r.2 with arena := r.2.arena ++ [{ c with ID := r.1 }],
                   recipes := r.2.recipes ++ [(name, r.2.arena.length)] }

/-- Core operations on the shared state, as issued through handles:
    arithmetic, scalar multiplication, minimize, decay, record, and
    registry load. -/
inductive Op where
  | add (h1 h2 : Nat)
  | sub (h1 h2 : Nat)
  | mult (h : Nat) (f : ℚ)
  | minimize (h : Nat)
  | decay (h : Nat) (t : Int)
  | record (h : Nat)
  | load (name : String) (m : CompMap) (atomBasis : Bool)

/-- One core operation applied to the shared state.  Arithmetic,
    multiplication and minimize follow the copy-on-write rule of the
    spec: they append a new composition to the arena and never edit an
    existing one; decay goes through the decay-chain cache; record goes
    through recordState; load through the recipe registry. -/
def applyOp (solver : CompMap → Int → CompMap) (s : CoreState) : Op → CoreState
  | Op.add h1 h2 =>
      { s with arena := s.arena ++ [addComp (arenaGet s h1) (arenaGet s h2)] }
  | Op.sub h1 h2 =>
      match subtractComp (arenaGet s h1) (arenaGet s h2) with
      | Except.ok c => { s with arena := s.arena ++ [c] }
      | Except.error _ => s
  | Op.mult h f =>
      { s with arena := s.arena ++ [multMassNormBy (arenaGet s h) f] }
  | Op.minimize h =>
      { s with arena := s.arena ++ [minimizeComposition (arenaGet s h)] }
  | Op.decay h t => (getOrComputeDaughter solver s h t).2
  | Op.record h => (recordState s h).2
  | Op.load name m atomBasis => loadRecipe s name m atomBasis

/-- A whole run: a sequence of core operations applied in order. -/
def runOps (solver : CompMap → Int → CompMap) (s : CoreState)
    (ops : List Op) : CoreState :=
  ops.foldl (applyOp solver) s

/-- Invariant tying the solver log to the decay-chain cache: a key has
    been solved exactly once iff it is cached, and never otherwise. -/
def CacheInv (s : CoreState) : Prop :=
  ∀ k : Nat × Int,
    countKey s.solverLog k = (if (lookupCache s.cache k).isSome then 1 else 0)

/-- Invariant of the shared ID counter: the assignment log is strictly
    increasing, below the counter, and the counter is at least 1. -/
def IDInv (s : CoreState) : Prop :=
  s.assigned.Pairwise (· < ·) ∧ (∀ x ∈ s.assigned, x < s.nextStateID) ∧
    1 ≤ s.nextStateID ∧ (∀ x ∈ s.assigned, 1 ≤ x)

/-- Identity solver used in concrete runs. -/
def solv0 : CompMap → Int → CompMap := fun m _ => m

/-- Concrete one-isotope composition (one unit of U-235), as construct
    would build it from a mass-basis map. -/
def uComp : composition :=
  { ID := 0, mass_fractions := [(92235, 1)], mass_normalizer := 1,
    atom_normalizer := 1, parent := none, decay_time := 0 }

/-- Concrete composition holding two units of U-235. -/
def bComp : composition :=
  { ID := 0, mass_fractions := [(92235, 2)], mass_normalizer := 2,
    atom_normalizer := 1, parent := none, decay_time := 0 }

/-- Value of subtracting uComp back out of addComp uComp uComp. -/
def rtResult : composition :=
  { ID := 0, mass_fractions := [(92235, 0)], mass_normalizer := 1,
    atom_normalizer := 0, parent := none, decay_time := 0 }

/-- Concrete scaled composition, produced by scalar multiplication. -/
def scaledComp : composition := multMassNormBy uComp 2

/-- Concrete already-logged composition (stateId 3). -/
def loggedComp0 : composition :=
  { ID := 3, mass_fractions := [(92235, 1)], mass_normalizer := 1,
    atom_normalizer := 1, parent := none, decay_time := 0 }

/-- Concrete unlogged composition (stateId 0). -/
def unloggedComp0 : composition :=
  { ID := 0, mass_fractions := [(10010, 1)], mass_normalizer := 1,
    atom_normalizer := 1, parent := none, decay_time := 0 }

/-- Concrete normalized two-isotope composition. -/
def normComp0 : composition :=
  { ID := 0, mass_fractions := [(92235, 1/2), (92238, 1/2)],
    mass_normalizer := 1, atom_normalizer := 1, parent := none, decay_time := 0 }

/-- Concrete state holding one logged composition, counter past it. -/
def st0 : CoreState :=
  { arena := [loggedComp0], nextStateID := 4, recipes := [], cache := [],
    solverLog := [], sink := [], assigned := [] }

/-- Concrete state holding one unlogged composition, counter at 1. -/
def st1 : CoreState :=
  { arena := [unloggedComp0], nextStateID := 1, recipes := [], cache := [],
    solverLog := [], sink := [], assigned := [] }

/-- Concrete operation sequence touching the logged composition. -/
def ops0 : List Op := [Op.record 0, Op.mult 0 2, Op.minimize 0, Op.add 0 0]

/- ------------------------------------------------------------------ -/
/- Helper lemmas on maps, sums and quantities.                        -/
/- ------------------------------------------------------------------ -/

theorem lookupQ_mkMapOn (l : List Iso) (f : Iso → ℚ) (i : Iso) :
    lookupQ (mkMapOn l f) i = if i ∈ l then f i else 0 := by
  induction l with
  | nil => simp [mkMapOn, lookupQ]
  | cons j rest ih =>
    simp only [mkMapOn, List.map_cons, lookupQ] at *
    by_cases hji : j = i
    · subst hji; simp
    · simp [hji, ih, List.mem_cons, Ne.symm hji]

theorem lookupQ_not_mem (m : CompMap) (i : Iso) (h : i ∉ keysOf m) :
    lookupQ m i = 0 := by
  induction m with
  | nil => rfl
  | cons p rest ih =>
    have hmem : i ∈ keysOf (p :: rest) ↔ i = p.1 ∨ i ∈ keysOf rest := by
      simp [keysOf]
    have h1 : ¬ p.1 = i := fun hp => h (hmem.mpr (Or.inl hp.symm))
    have h2 : i ∉ keysOf rest := fun hir => h (hmem.mpr (Or.inr hir))
    simp [lookupQ, h1, ih h2]

theorem keysOf_mkMapOn (l : List Iso) (f : Iso → ℚ) : keysOf (mkMapOn l f) = l := by
  induction l with
  | nil => rfl
  | cons j rest ih => simpa [mkMapOn, keysOf] using ih

theorem keysOf_scaleMap (f : ℚ) (m : CompMap) : keysOf (scaleMap f m) = keysOf m := by
  simp [keysOf, scaleMap, List.map_map, Function.comp]

theorem lookupQ_scaleMap (f : ℚ) (m : CompMap) (i : Iso) :
    lookupQ (scaleMap f m) i = lookupQ m i * f := by
  induction m with
  | nil => simp [scaleMap, lookupQ]
  | cons p rest ih =>
    simp only [scaleMap, List.map_cons, lookupQ] at *
    by_cases h : p.1 = i
    · simp [h]
    · simp only [if_neg h]; exact ih

theorem sumValues_mkMapOn (l : List Iso) (f : Iso → ℚ) :
    sumValues (mkMapOn l f) = sumOver l f := by
  induction l with
  | nil => rfl
  | cons j rest ih =>
    show f j + sumValues (mkMapOn rest f) = f j + sumOver rest f
    rw [ih]

theorem sumOver_congr (l : List Iso) (f g : Iso → ℚ) (h : ∀ i ∈ l, f i = g i) :
    sumOver l f = sumOver l g := by
  induction l with
  | nil => rfl
  | cons j rest ih =>
    simp only [sumOver]
    rw [h j (List.mem_cons_self j rest), ih (fun i hi => h i (List.mem_cons_of_mem j hi))]

theorem sumOver_nonneg (l : List Iso) (f : Iso → ℚ) (h : ∀ i ∈ l, 0 ≤ f i) :
    0 ≤ sumOver l f := by
  induction l with
  | nil => exact le_refl 0
  | cons j rest ih =>
    have := h j (List.mem_cons_self j rest)
    have := ih (fun i hi => h i (List.mem_cons_of_mem j hi))
    simp only [sumOver]; linarith

theorem sumOver_eq_zero (l : List Iso) (f : Iso → ℚ) (h : ∀ i ∈ l, 0 ≤ f i)
    (h0 : sumOver l f = 0) : ∀ i ∈ l, f i = 0 := by
  induction l with
  | nil => intro i hi; cases hi
  | cons j rest ih =>
    have hj := h j (List.mem_cons_self j rest)
    have hrest : ∀ i ∈ rest, 0 ≤ f i := fun i hi => h i (List.mem_cons_of_mem j hi)
    have hsum : 0 ≤ sumOver rest f := sumOver_nonneg rest f hrest
    simp only [sumOver] at h0
    have hj0 : f j = 0 := by linarith
    have hr0 : sumOver rest f = 0 := by linarith
    intro i hi
    rcases List.mem_cons.mp hi with hij | hir
    · subst hij; exact hj0
    · exact ih hrest hr0 i hir

theorem sumOver_mul (l : List Iso) (f : Iso → ℚ) (k : ℚ) :
    sumOver l (fun i => f i * k) = sumOver l f * k := by
  induction l with
  | nil => simp [sumOver]
  | cons j rest ih => simp [sumOver, ih]; ring

theorem sumOver_lookup_nodup (m : CompMap) (h : (keysOf m).Nodup) :
    sumOver (keysOf m) (lookupQ m) = sumValues m := by
  induction m with
  | nil => rfl
  | cons p rest ih =>
    have hn : p.1 ∉ keysOf rest ∧ (keysOf rest).Nodup := by
      simpa [keysOf] using h
    show lookupQ (p :: rest) p.1 + sumOver (keysOf rest) (lookupQ (p :: rest))
        = p.2 + sumValues rest
    have h1 : lookupQ (p :: rest) p.1 = p.2 := by simp [lookupQ]
    have hcong : ∀ i ∈ keysOf rest, lookupQ (p :: rest) i = lookupQ rest i := by
      intro i hi
      have hne : ¬ p.1 = i := fun hpi => hn.1 (by rw [hpi]; exact hi)
      simp [lookupQ, hne]
    rw [h1, sumOver_congr _ _ _ hcong, ih hn.2]

theorem quantity_eq_lookup (c : composition) (i : Iso)
    (h : c.mass_normalizer ≠ 0) : quantity c i = lookupQ c.mass_fractions i := by
  unfold quantity massFraction
  field_simp

theorem quantity_of_norm_zero (c : composition) (i : Iso)
    (h : c.mass_normalizer = 0) : quantity c i = 0 := by
  unfold quantity massFraction
  rw [h]; simp

theorem quantity_not_mem (c : composition) (i : Iso)
    (h : i ∉ keysOf c.mass_fractions) : quantity c i = 0 := by
  unfold quantity massFraction
  rw [lookupQ_not_mem _ _ h]; simp

theorem quantity_mkComposition (m : CompMap) (i : Iso) :
    quantity (mkComposition m) i = if sumValues m = 0 then 0 else lookupQ m i := by
  by_cases h : sumValues m = 0
  · rw [if_pos h]
    exact quantity_of_norm_zero _ _ h
  · rw [if_neg h]
    exact quantity_eq_lookup _ _ h

theorem mem_unionSupport (a b : composition) (i : Iso) :
    i ∈ unionSupport a b ↔
      i ∈ keysOf a.mass_fractions ∨ i ∈ keysOf b.mass_fractions := by
  simp [unionSupport, List.mem_dedup, List.mem_append]

/- ------------------------------------------------------------------ -/
/- C9: equality within tolerance.                                     -/
/- ------------------------------------------------------------------ -/

/-- C9: equals(a, b) (the == comparison) returns true if and only if for
    every isotope present in either composition — and hence, since absent
    isotopes contribute quantity 0 on both sides, for every isotope at
    all — the per-isotope quantities of a and b differ by at most the
    mass tolerance EPS_KG = 1e-6. -/
theorem c9_equals_iff_within_tolerance (a b : composition) :
    equalsComp a b = true ↔ ∀ i : Iso, |quantity a i - quantity b i| ≤ EPS_KG := by
  unfold equalsComp
  rw [List.all_eq_true]
  constructor
  · intro h i
    by_cases hi : i ∈ unionSupport a b
    · have := h i hi
      rwa [decide_eq_true_eq] at this
    · have hna : i ∉ keysOf a.mass_fractions :=
        fun hm => hi ((mem_unionSupport a b i).mpr (Or.inl hm))
      have hnb : i ∉ keysOf b.mass_fractions :=
        fun hm => hi ((mem_unionSupport a b i).mpr (Or.inr hm))
      rw [quantity_not_mem a i hna, quantity_not_mem b i hnb]
      norm_num [EPS_KG]
  · intro h i _
    rw [decide_eq_true_eq]
    exact h i

/-- Witness for C9: a composition compared with itself is within
    tolerance at every isotope. -/
theorem c9_equals_iff_within_tolerance_witness :
    |quantity uComp 92235 - quantity uComp 92235| ≤ EPS_KG :=
  (c9_equals_iff_within_tolerance uComp uComp).mp
    (by norm_num [equalsComp, unionSupport, uComp, keysOf, quantity, massFraction,
      lookupQ, EPS_KG, List.dedup_cons_of_mem, List.dedup_cons_of_not_mem]) 92235

/- ------------------------------------------------------------------ -/
/- C5: subtraction and RangeError.                                    -/
/- ------------------------------------------------------------------ -/

/-- C5: subtract(a, b) fails with RangeError exactly when some isotope's
    quantity in b exceeds its quantity in a by more than EPS_KG (that is,
    some resulting per-isotope quantity would be below -1e-6); otherwise
    it returns the per-isotope difference composition (minimized, per the
    spec's subtract), whose stored entries are exactly the per-isotope
    quantity differences. -/
theorem c5_subtract_rangeError_iff (a b : composition) :
    (subtractComp a b = Except.error CoreError.rangeError
        ↔ ∃ i : Iso, quantity a i - quantity b i < -EPS_KG)
  ∧ ((∀ i : Iso, -EPS_KG ≤ quantity a i - quantity b i) →
        subtractComp a b = Except.ok (minimizeComposition (subRawComp a b)))
  ∧ (∀ i : Iso, lookupQ (subRawComp a b).mass_fractions i
        = if i ∈ unionSupport a b then quantity a i - quantity b i else 0) := by
  have hthird : ∀ i : Iso, lookupQ (subRawComp a b).mass_fractions i
      = if i ∈ unionSupport a b then quantity a i - quantity b i else 0 :=
    fun i => lookupQ_mkMapOn _ _ i
  cases hc : (unionSupport a b).all
      (fun i => decide (-EPS_KG ≤ quantity a i - quantity b i)) with
  | true =>
    refine ⟨⟨?_, ?_⟩, ?_, hthird⟩
    · intro hcontra
      rw [subtractComp, hc] at hcontra
      simp at hcontra
    · rintro ⟨i, hi⟩
      exfalso
      by_cases hmem : i ∈ unionSupport a b
      · have := List.all_eq_true.mp hc i hmem
        rw [decide_eq_true_eq] at this
        linarith
      · have hna : i ∉ keysOf a.mass_fractions :=
          fun hm => hmem ((mem_unionSupport a b i).mpr (Or.inl hm))
        have hnb : i ∉ keysOf b.mass_fractions :=
          fun hm => hmem ((mem_unionSupport a b i).mpr (Or.inr hm))
        rw [quantity_not_mem a i hna, quantity_not_mem b i hnb] at hi
        norm_num [EPS_KG] at hi
    · intro _
      rw [subtractComp, hc]
      simp
  | false =>
    have hex : ∃ i : Iso, quantity a i - quantity b i < -EPS_KG := by
      obtain ⟨i, _, hdec⟩ := List.all_eq_false.mp hc
      rw [decide_eq_true_eq] at hdec
      exact ⟨i, lt_of_not_le hdec⟩
    refine ⟨⟨fun _ => hex, ?_⟩, ?_, hthird⟩
    · intro _
      rw [subtractComp, hc]
      simp
    · intro hall
      exfalso
      obtain ⟨i, hi⟩ := hex
      have := hall i
      linarith

/-- Witness for C5: removing two units of U-235 from a single unit fails
    with RangeError. -/
theorem c5_subtract_rangeError_iff_witness :
    subtractComp uComp bComp = Except.error CoreError.rangeError :=
  (c5_subtract_rangeError_iff uComp bComp).1.mpr
    ⟨92235, by norm_num [quantity, massFraction, uComp, bComp, lookupQ, EPS_KG]⟩

/- ------------------------------------------------------------------ -/
/- C6: construction-time validation.                                  -/
/- ------------------------------------------------------------------ -/

theorem validateEntries_ok_iff (m : CompMap) :
    validateEntries m = Except.ok () ↔ ∀ p ∈ m, validIso p.1 = true ∧ 0 ≤ p.2 := by
  induction m with
  | nil => simp [validateEntries]
  | cons p rest ih =>
    by_cases hv : validIso p.1 = true
    · by_cases hq : p.2 < 0
      · rw [validateEntries, hv]
        simp only [if_true, if_pos hq]
        constructor
        · intro h; cases h
        · intro h
          exfalso
          have := (h p (List.mem_cons_self p rest)).2
          linarith
      · rw [validateEntries, hv]
        simp only [if_true, if_neg hq]
        rw [ih]
        constructor
        · intro h q hq2
          rcases List.mem_cons.mp hq2 with hqp | hqr
          · subst hqp; exact ⟨hv, not_lt.mp hq⟩
          · exact h q hqr
        · intro h q hq2
          exact h q (List.mem_cons_of_mem p hq2)
    · rw [validateEntries]
      rw [Bool.not_eq_true] at hv
      rw [hv]
      simp only [Bool.false_eq_true, if_false]
      constructor
      · intro h; cases h
      · intro h
        exfalso
        have := (h p (List.mem_cons_self p rest)).1
        rw [hv] at this
        cases this

theorem validateEntries_invalid (m : CompMap) (i : Iso)
    (h : validateEntries m = Except.error (CoreError.invalidIsotope i)) :
    validIso i = false := by
  induction m with
  | nil => cases h
  | cons p rest ih =>
    rw [validateEntries] at h
    by_cases hv : validIso p.1 = true
    · rw [hv] at h
      simp only [if_true] at h
      by_cases hq : p.2 < 0
      · rw [if_pos hq] at h; cases h
      · rw [if_neg hq] at h; exact ih h
    · rw [Bool.not_eq_true] at hv
      rw [hv] at h
      simp only [Bool.false_eq_true, if_false] at h
      injection h with h1
      injection h1 with h2
      rw [← h2]
      exact hv

theorem validateEntries_negative (m : CompMap) (q : ℚ)
    (h : validateEntries m = Except.error (CoreError.negativeFraction q)) :
    q < 0 := by
  induction m with
  | nil => cases h
  | cons p rest ih =>
    rw [validateEntries] at h
    by_cases hv : validIso p.1 = true
    · rw [hv] at h
      simp only [if_true] at h
      by_cases hq : p.2 < 0
      · rw [if_pos hq] at h
        injection h with h1
        injection h1 with h2
        rw [← h2]
        exact hq
      · rw [if_neg hq] at h; exact ih h
    · rw [Bool.not_eq_true] at hv
      rw [hv] at h
      simp only [Bool.false_eq_true, if_false] at h
      cases h

/-- C6: construct fails with InvalidIsotope only for identifiers whose
    ZZZAAA decomposition violates 1 <= Z <= 103 or A >= Z, fails with
    NegativeFraction only for quantities strictly below 0, and succeeds
    exactly when every entry has a valid identifier and a non-negative
    quantity. -/
theorem c6_construct_validation (m : CompMap) (atomBasis : Bool) :
    ((construct m atomBasis).isOk = true ↔ ∀ p ∈ m, validIso p.1 = true ∧ 0 ≤ p.2)
  ∧ (∀ i : Iso, construct m atomBasis = Except.error (CoreError.invalidIsotope i)
        → validIso i = false)
  ∧ (∀ q : ℚ, construct m atomBasis = Except.error (CoreError.negativeFraction q)
        → q < 0) := by
  refine ⟨?_, ?_, ?_⟩
  · rw [← validateEntries_ok_iff]
    unfold construct
    cases hval : validateEntries m with
    | error e => simp [Except.isOk, Except.toBool, hval]
    | ok u => cases u; simp [Except.isOk, Except.toBool]
  · intro i hi
    unfold construct at hi
    cases hval : validateEntries m with
    | error e =>
      rw [hval] at hi
      injection hi with h1
      exact validateEntries_invalid m i (h1 ▸ hval)
    | ok u => rw [hval] at hi; cases hi
  · intro q hq
    unfold construct at hq
    cases hval : validateEntries m with
    | error e =>
      rw [hval] at hq
      injection hq with h1
      exact validateEntries_negative m q (h1 ▸ hval)
    | ok u => rw [hval] at hq; cases hq

/-- Witness for C6: a valid one-entry map constructs successfully. -/
theorem c6_construct_validation_witness :
    (construct [(92235, (1 : ℚ))] false).isOk = true :=
  (c6_construct_validation [(92235, (1 : ℚ))] false).1.mpr (by
    intro p hp
    rw [List.mem_singleton] at hp
    subst hp
    exact ⟨by decide, by norm_num⟩)

/- ------------------------------------------------------------------ -/
/- C7: minimize and the unit normalizer.                              -/
/- ------------------------------------------------------------------ -/

/-- C7 counterexample: the claim fails for a composition whose mass
    normalizer is not the sum of its stored entries — here the scalar
    multiple of a unit composition, as produced by the multiplication
    operator.  After minimize the normalizer is 1 but the mass fractions
    sum to 1/2, far outside the 1e-14 tolerance. -/
theorem c7_minimize_counterexample :
    ¬ ((minimizeComposition scaledComp).mass_normalizer = 1
       ∧ |sumMassFracs (minimizeComposition scaledComp) - 1| ≤ EPS_PERCENT) := by
  norm_num [minimizeComposition, scaledComp, multMassNormBy, uComp, sumMassFracs,
    keysOf, scaleMap, sumOver, massFraction, lookupQ, EPS_PERCENT]
  have h : |(1:ℚ)/2| = 1/2 := abs_of_nonneg (by norm_num)
  rw [h]; norm_num

/-- C7 (amended): for every composition with distinct isotope keys whose
    mass normalizer is nonzero and equals the sum of its stored entries
    (as holds for every composition built by construct, add, subtract or
    minimize, though not after bare scalar multiplication), minimize
    yields a normalizer of exactly 1 and mass fractions summing to
    exactly 1, hence within the 1e-14 tolerance. -/
theorem c7_minimize_normalizes (c : composition)
    (hnodup : (keysOf c.mass_fractions).Nodup)
    (hnorm : c.mass_normalizer = sumValues c.mass_fractions)
    (h0 : c.mass_normalizer ≠ 0) :
    (minimizeComposition c).mass_normalizer = 1
  ∧ |sumMassFracs (minimizeComposition c) - 1| ≤ EPS_PERCENT := by
  refine ⟨rfl, ?_⟩
  have hsum : sumMassFracs (minimizeComposition c)
      = sumOver (keysOf c.mass_fractions)
          (fun i => lookupQ c.mass_fractions i * (1 / c.mass_normalizer)) := by
    unfold sumMassFracs
    show sumOver (keysOf (scaleMap (1 / c.mass_normalizer) c.mass_fractions))
        (massFraction (minimizeComposition c)) = _
    rw [keysOf_scaleMap]
    apply sumOver_congr
    intro i _
    unfold massFraction minimizeComposition
    simp [lookupQ_scaleMap]
  rw [hsum, sumOver_mul, sumOver_lookup_nodup c.mass_fractions hnodup, ← hnorm,
    mul_one_div, div_self h0]
  norm_num [EPS_PERCENT]

/-- Witness for the amended C7 at a concrete normalized composition. -/
theorem c7_minimize_normalizes_witness :
    (minimizeComposition normComp0).mass_normalizer = 1
  ∧ |sumMassFracs (minimizeComposition normComp0) - 1| ≤ EPS_PERCENT :=
  c7_minimize_normalizes normComp0 (by decide)
    (by norm_num [normComp0, sumValues]) (by norm_num [normComp0])

/- ------------------------------------------------------------------ -/
/- C4: the add/subtract round trip.                                   -/
/- ------------------------------------------------------------------ -/

theorem subRaw_addRaw_quantity (a b : composition)
    (ha : ∀ i ∈ unionSupport a b, 0 ≤ quantity a i)
    (hb : ∀ i ∈ unionSupport a b, 0 ≤ quantity b i) :
    ∀ i ∈ unionSupport (addRawComp a b) b,
      quantity (addRawComp a b) i - quantity b i = quantity a i := by
  intro i hi
  have hiU : i ∈ unionSupport a b := by
    rcases (mem_unionSupport _ _ i).mp hi with hk | hk
    · rw [show (addRawComp a b).mass_fractions
          = mkMapOn (unionSupport a b) (fun j => quantity a j + quantity b j) from rfl,
        keysOf_mkMapOn] at hk
      exact hk
    · exact (mem_unionSupport a b i).mpr (Or.inr hk)
  by_cases hT : sumValues (mkMapOn (unionSupport a b)
      (fun j => quantity a j + quantity b j)) = 0
  · have hzero : ∀ j ∈ unionSupport a b, quantity a j + quantity b j = 0 := by
      rw [sumValues_mkMapOn] at hT
      exact sumOver_eq_zero _ _
        (fun j hj => by have h1 := ha j hj; have h2 := hb j hj; linarith) hT
    have hq1 : quantity (addRawComp a b) i = 0 := quantity_of_norm_zero _ _ hT
    have h1 := ha i hiU
    have h2 := hb i hiU
    have h3 := hzero i hiU
    have hqa : quantity a i = 0 := by linarith
    have hqb : quantity b i = 0 := by linarith
    rw [hq1, hqa, hqb]; ring
  · have hq1 : quantity (addRawComp a b) i = quantity a i + quantity b i := by
      rw [show addRawComp a b = mkComposition (mkMapOn (unionSupport a b)
          (fun j => quantity a j + quantity b j)) from rfl]
      rw [quantity_mkComposition, if_neg hT, lookupQ_mkMapOn, if_pos hiU]
    rw [hq1]; ring

/-- C4 (amended): the round trip holds for the un-minimized intermediate
    results: with non-negative per-isotope quantities on both sides (so
    that subtraction produces no negative result), subtracting b from the
    raw quantity-sum of a and b succeeds without RangeError and the raw
    difference composition equals a within 1e-6 per isotope (in fact
    exactly); the final minimize rescaling prescribed by the spec's add
    is what breaks the claim as originally stated. -/
theorem c4_roundTrip_raw (a b : composition)
    (ha : ∀ i ∈ unionSupport a b, 0 ≤ quantity a i)
    (hb : ∀ i ∈ unionSupport a b, 0 ≤ quantity b i) :
    (subtractComp (addRawComp a b) b).isOk = true
  ∧ equalsComp (subRawComp (addRawComp a b) b) a = true := by
  have hd := subRaw_addRaw_quantity a b ha hb
  have hU2U : ∀ i ∈ unionSupport (addRawComp a b) b, i ∈ unionSupport a b := by
    intro i hi
    rcases (mem_unionSupport _ _ i).mp hi with hk | hk
    · rw [show (addRawComp a b).mass_fractions
          = mkMapOn (unionSupport a b) (fun j => quantity a j + quantity b j) from rfl,
        keysOf_mkMapOn] at hk
      exact hk
    · exact (mem_unionSupport a b i).mpr (Or.inr hk)
  constructor
  · rw [subtractComp]
    have hall : (unionSupport (addRawComp a b) b).all
        (fun i => decide (-EPS_KG ≤ quantity (addRawComp a b) i - quantity b i)) = true := by
      rw [List.all_eq_true]
      intro i hi
      rw [decide_eq_true_eq, hd i hi]
      have := ha i (hU2U i hi)
      have heps : (0:ℚ) < EPS_KG := by norm_num [EPS_KG]
      linarith
    rw [hall]
    rfl
  · rw [equalsComp, List.all_eq_true]
    intro i hi
    rw [decide_eq_true_eq]
    have hiU2 : i ∈ unionSupport (addRawComp a b) b := by
      rcases (mem_unionSupport _ _ i).mp hi with hk | hk
      · rw [show (subRawComp (addRawComp a b) b).mass_fractions
            = mkMapOn (unionSupport (addRawComp a b) b)
                (fun j => quantity (addRawComp a b) j - quantity b j) from rfl,
          keysOf_mkMapOn] at hk
        exact hk
      · have hiU : i ∈ unionSupport a b := (mem_unionSupport a b i).mpr (Or.inl hk)
        apply (mem_unionSupport _ _ i).mpr
        left
        rw [show (addRawComp a b).mass_fractions
            = mkMapOn (unionSupport a b) (fun j => quantity a j + quantity b j) from rfl,
          keysOf_mkMapOn]
        exact hiU
    by_cases hS : sumValues (mkMapOn (unionSupport (addRawComp a b) b)
        (fun j => quantity (addRawComp a b) j - quantity b j)) = 0
    · have hqr2 : quantity (subRawComp (addRawComp a b) b) i = 0 :=
        quantity_of_norm_zero _ _ hS
      have hqa0 : ∀ j ∈ unionSupport (addRawComp a b) b, quantity a j = 0 := by
        rw [sumValues_mkMapOn] at hS
        have hS2 : sumOver (unionSupport (addRawComp a b) b)
            (fun j => quantity a j) = 0 :=
          (sumOver_congr _ _ _ (fun j hj => (hd j hj).symm)).trans hS
        exact sumOver_eq_zero _ _ (fun j hj => ha j (hU2U j hj)) hS2
      rw [hqr2, hqa0 i hiU2]
      norm_num [EPS_KG]
    · have hqr2 : quantity (subRawComp (addRawComp a b) b) i = quantity a i := by
        rw [show subRawComp (addRawComp a b) b
            = mkComposition (mkMapOn (unionSupport (addRawComp a b) b)
                (fun j => quantity (addRawComp a b) j - quantity b j)) from rfl]
        rw [quantity_mkComposition, if_neg hS, lookupQ_mkMapOn, if_pos hiU2]
        exact hd i hiU2
      rw [hqr2]
      norm_num [EPS_KG]

/-- C4 counterexample: with a single unit of U-235 as both operands the
    subtraction succeeds — no per-isotope result is negative — yet the
    result of subtract(add(a, b), b) is not within 1e-6 of a at isotope
    92235: the minimize step of add and subtract normalizes the total
    away, so the difference composition is zero while a holds one unit. -/
theorem c4_roundTrip_counterexample :
    (subtractComp (addComp uComp uComp) uComp).map (fun d => equalsComp d uComp)
      = Except.ok false := by
  norm_num [subtractComp, subRawComp, addComp, addRawComp, mkComposition,
    minimizeComposition, unionSupport, keysOf, uComp, mkMapOn, quantity, massFraction,
    lookupQ, sumValues, sumAtomValues, scaleMap, getMassNum, EPS_KG, equalsComp,
    List.dedup_cons_of_mem, List.dedup_cons_of_not_mem, Except.map]

/-- Witness for the amended C4 at concrete compositions. -/
theorem c4_roundTrip_raw_witness :
    (subtractComp (addRawComp uComp uComp) uComp).isOk = true
  ∧ equalsComp (subRawComp (addRawComp uComp uComp) uComp) uComp = true := by
  have hmem : ∀ i ∈ unionSupport uComp uComp, i = (92235 : Iso) := by
    intro i hi
    simpa [unionSupport, uComp, keysOf, List.dedup_cons_of_mem,
      List.dedup_cons_of_not_mem] using hi
  apply c4_roundTrip_raw uComp uComp <;>
    exact fun i hi => by
      rw [hmem i hi]
      norm_num [quantity, massFraction, uComp, lookupQ]

/- ------------------------------------------------------------------ -/
/- Record behaviour (C8) and the frozen-once-logged invariant (C3).   -/
/- ------------------------------------------------------------------ -/

theorem recordState_not_new (s : CoreState) (h : Nat)
    (hne : (arenaGet s h).ID ≠ 0) : recordState s h = (false, s) := by
  simp only [recordState]
  rw [if_neg hne]

theorem recordState_new (s : CoreState) (h : Nat)
    (hid : (arenaGet s h).ID = 0) :
    recordState s h = (true,
      { s with nextStateID := s.nextStateID + 1,
               assigned := s.assigned ++ [s.nextStateID],
               arena := s.arena.set h { arenaGet s h with ID := s.nextStateID },
               sink := s.sink ++ sinkRows s.nextStateID (arenaGet s h).mass_fractions }) := by
  simp only [recordState, freshID]
  rw [if_pos hid]

/-- C8: record on a handle whose composition has stateId 0 assigns the
    next ID from the shared counter, forwards the (stateId, isotope,
    fraction) rows to the persistence sink, advances the counter and
    returns true; on an already-logged composition it is a no-op
    returning false — in particular a second record of the same handle
    writes nothing further, so the sink sees each composition at most
    once. -/
theorem c8_record_once (s : CoreState) (h : Nat) (c : composition)
    (hc : s.arena[h]? = some c) (hn : 0 < s.nextStateID) :
    (c.ID = 0 →
        (recordState s h).1 = true
      ∧ (recordState s h).2.sink = s.sink ++ sinkRows s.nextStateID c.mass_fractions
      ∧ (recordState s h).2.arena[h]? = some { c with ID := s.nextStateID }
      ∧ (recordState s h).2.nextStateID = s.nextStateID + 1
      ∧ (recordState (recordState s h).2 h).1 = false
      ∧ (recordState (recordState s h).2 h).2 = (recordState s h).2)
  ∧ (0 < c.ID → recordState s h = (false, s)) := by
  have harena : arenaGet s h = c := by unfold arenaGet; rw [hc]; rfl
  have hlen : h < s.arena.length := (List.getElem?_eq_some.mp hc).1
  constructor
  · intro hid
    have hid2 : (arenaGet s h).ID = 0 := by rw [harena]; exact hid
    have hrec := recordState_new s h hid2
    rw [harena] at hrec
    have harena2 : (recordState s h).2.arena[h]? = some { c with ID := s.nextStateID } := by
      rw [hrec]
      exact List.getElem?_set_self hlen
    have hget2 : arenaGet (recordState s h).2 h = { c with ID := s.nextStateID } := by
      unfold arenaGet
      rw [harena2]
      rfl
    have hID2 : (arenaGet (recordState s h).2 h).ID ≠ 0 := by
      rw [hget2]
      exact hn.ne'
    have hsecond := recordState_not_new (recordState s h).2 h hID2
    refine ⟨by rw [hrec], by rw [hrec], harena2, by rw [hrec], by rw [hsecond],
      by rw [hsecond]⟩
  · intro hpos
    apply recordState_not_new
    rw [harena]
    exact hpos.ne'

/-- Witness for C8: recording a fresh composition returns true, a second
    record of the same handle returns false. -/
theorem c8_record_once_witness :
    (recordState st1 0).1 = true ∧ (recordState (recordState st1 0).2 0).1 = false := by
  have H := c8_record_once st1 0 unloggedComp0 (by decide) (by decide)
  exact ⟨(H.1 rfl).1, (H.1 rfl).2.2.2.2.1⟩

theorem applyOp_preserves_logged (solver : CompMap → Int → CompMap)
    (s : CoreState) (op : Op) (i : Nat) (c : composition)
    (hc : s.arena[i]? = some c) (hID : 0 < c.ID) :
    (applyOp solver s op).arena[i]? = some c := by
  have hlen : i < s.arena.length := (List.getElem?_eq_some.mp hc).1
  have happend : ∀ x : composition, (s.arena ++ [x])[i]? = some c := by
    intro x
    rw [List.getElem?_append_left hlen]
    exact hc
  cases op with
  | add h1 h2 => exact happend _
  | sub h1 h2 =>
    simp only [applyOp]
    cases hsub : subtractComp (arenaGet s h1) (arenaGet s h2) with
    | ok d => exact happend _
    | error e => exact hc
  | mult h f => exact happend _
  | minimize h => exact happend _
  | decay h t =>
    simp only [applyOp, getOrComputeDaughter]
    cases hl : lookupCache s.cache (h, t) with
    | some d => exact hc
    | none => exact happend _
  | record h =>
    simp only [applyOp]
    by_cases hid : (arenaGet s h).ID = 0
    · rw [recordState_new s h hid]
      by_cases hih : h = i
      · exfalso
        subst hih
        have heq : arenaGet s h = c := by unfold arenaGet; rw [hc]; rfl
        rw [heq] at hid
        rw [hid] at hID
        exact lt_irrefl 0 hID
      · show (s.arena.set h _)[i]? = some c
        rw [List.getElem?_set_ne hih]
        exact hc
    · rw [recordState_not_new s h hid]
      exact hc
  | load name m atomBasis =>
    simp only [applyOp, loadRecipe]
    cases hdup : (s.recipes.map Prod.fst).contains name with
    | true => exact hc
    | false =>
      cases hcon : construct m atomBasis with
      | error e => exact hc
      | ok cc => exact happend _

/-- C3: once a composition is logged (stateId positive), no subsequent
    core operation — add, subtract, scalar multiplication, minimize,
    decay through the cache, record, or registry load — changes any of
    its fields: arithmetic and decay append new compositions to the
    shared arena, and record only touches compositions whose stateId is
    still 0. -/
theorem c3_logged_frozen (solver : CompMap → Int → CompMap) (ops : List Op)
    (s : CoreState) (i : Nat) (c : composition)
    (hc : s.arena[i]? = some c) (hID : 0 < c.ID) :
    (runOps solver s ops).arena[i]? = some c := by
  induction ops generalizing s with
  | nil => exact hc
  | cons op rest ih =>
    exact ih (applyOp solver s op) (applyOp_preserves_logged solver s op i c hc hID)

/-- Witness for C3 at a concrete run of record, multiplication, minimize
    and addition over a logged composition. -/
theorem c3_logged_frozen_witness :
    (runOps solv0 st0 ops0).arena[0]? = some loggedComp0 :=
  c3_logged_frozen solv0 ops0 st0 0 loggedComp0 (by decide) (by decide)

/- ------------------------------------------------------------------ -/
/- C10: scalar multiplication frame.                                  -/
/- ------------------------------------------------------------------ -/

/-- C10: scalar multiplication rebinds the handle to a fresh composition
    appended to the arena (leaving every existing composition in place,
    including the operand) whose mass normalizer is the operand's times
    the factor, while the stored fraction map, the state ID, the atom
    normalizer, the parent reference and the decay time are all
    unchanged. -/
theorem c10_mult_frame (solver : CompMap → Int → CompMap) (s : CoreState)
    (h : Nat) (f : ℚ) (c : composition) (hc : s.arena[h]? = some c) :
    (applyOp solver s (Op.mult h f)).arena = s.arena ++ [multMassNormBy c f]
  ∧ (multMassNormBy c f).mass_normalizer = c.mass_normalizer * f
  ∧ (multMassNormBy c f).mass_fractions = c.mass_fractions
  ∧ (multMassNormBy c f).ID = c.ID
  ∧ (multMassNormBy c f).atom_normalizer = c.atom_normalizer
  ∧ (multMassNormBy c f).parent = c.parent
  ∧ (multMassNormBy c f).decay_time = c.decay_time := by
  have harena : arenaGet s h = c := by unfold arenaGet; rw [hc]; rfl
  refine ⟨?_, rfl, rfl, rfl, rfl, rfl, rfl⟩
  simp only [applyOp, harena]

/-- Witness for C10 at a concrete state and factor. -/
theorem c10_mult_frame_witness :
    (applyOp solv0 st0 (Op.mult 0 2)).arena = st0.arena ++ [multMassNormBy loggedComp0 2]
  ∧ (multMassNormBy loggedComp0 2).mass_fractions = loggedComp0.mass_fractions := by
  have H := c10_mult_frame solv0 st0 0 2 loggedComp0 (by decide)
  exact ⟨H.1, H.2.2.1⟩

/- ------------------------------------------------------------------ -/
/- C2: the shared monotonic state-ID counter.                         -/
/- ------------------------------------------------------------------ -/

theorem freshID_idinv (s : CoreState) (hinv : IDInv s) : IDInv (freshID s).2 := by
  obtain ⟨hpw, hlt, h1, hge⟩ := hinv
  refine ⟨?_, ?_, ?_, ?_⟩
  · show (s.assigned ++ [s.nextStateID]).Pairwise (· < ·)
    rw [List.pairwise_append]
    refine ⟨hpw, List.pairwise_singleton _ _, ?_⟩
    intro a ha b hb
    rw [List.mem_singleton] at hb
    subst hb
    exact hlt a ha
  · intro x hx
    show x < s.nextStateID + 1
    rcases List.mem_append.mp hx with hx1 | hx2
    · exact lt_trans (hlt x hx1) (lt_add_one _)
    · rw [List.mem_singleton] at hx2
      subst hx2
      exact lt_add_one _
  · show 1 ≤ s.nextStateID + 1
    linarith
  · intro x hx
    rcases List.mem_append.mp hx with hx1 | hx2
    · exact hge x hx1
    · rw [List.mem_singleton] at hx2
      subst hx2
      exact h1

theorem applyOp_idinv (solver : CompMap → Int → CompMap) (s : CoreState) (op : Op)
    (hinv : IDInv s) : IDInv (applyOp solver s op) := by
  cases op with
  | add h1 h2 => exact hinv
  | sub h1 h2 =>
    simp only [applyOp]
    cases hsub : subtractComp (arenaGet s h1) (arenaGet s h2) with
    | ok d => exact hinv
    | error e => exact hinv
  | mult h f => exact hinv
  | minimize h => exact hinv
  | decay h t =>
    simp only [applyOp, getOrComputeDaughter]
    cases hl : lookupCache s.cache (h, t) with
    | some d => exact hinv
    | none => exact hinv
  | record h =>
    by_cases hid : (arenaGet s h).ID = 0
    · rw [show applyOp solver s (Op.record h) = (recordState s h).2 from rfl,
        recordState_new s h hid]
      exact freshID_idinv s hinv
    · rw [show applyOp solver s (Op.record h) = (recordState s h).2 from rfl,
        recordState_not_new s h hid]
      exact hinv
  | load name m atomBasis =>
    simp only [applyOp, loadRecipe]
    cases hdup : (s.recipes.map Prod.fst).contains name with
    | true => exact hinv
    | false =>
      cases hcon : construct m atomBasis with
      | error e => exact hinv
      | ok cc => exact freshID_idinv s hinv

theorem runOps_idinv (solver : CompMap → Int → CompMap) (ops : List Op)
    (s : CoreState) (hinv : IDInv s) : IDInv (runOps solver s ops) := by
  induction ops generalizing s with
  | nil => exact hinv
  | cons op rest ih => exact ih _ (applyOp_idinv solver s op hinv)

/-- C2: over any whole run from the initial state, every state ID —
    whether assigned by a recipe-registry load or by record — is drawn
    from the one shared counter starting at 1, so the ordered log of
    assigned IDs is strictly increasing, every assigned ID is at least 1,
    and no ID is ever assigned twice. -/
theorem c2_state_ids_monotonic (solver : CompMap → Int → CompMap) (ops : List Op) :
    ((runOps solver initState ops).assigned.Pairwise (· < ·))
  ∧ (∀ x ∈ (runOps solver initState ops).assigned, 1 ≤ x)
  ∧ ((runOps solver initState ops).assigned.Nodup) := by
  have h0 : IDInv initState := by
    refine ⟨List.Pairwise.nil, ?_, le_refl 1, ?_⟩
    · intro x hx
      exact absurd hx (List.not_mem_nil x)
    · intro x hx
      exact absurd hx (List.not_mem_nil x)
  obtain ⟨hpw, hlt, h1, hge⟩ := runOps_idinv solver ops initState h0
  exact ⟨hpw, hge, List.Pairwise.imp ne_of_lt hpw⟩

/- ------------------------------------------------------------------ -/
/- C1: decay-chain memoization.                                       -/
/- ------------------------------------------------------------------ -/

theorem lookupCache_append_none (l1 l2 : List ((Nat × Int) × Nat)) (k : Nat × Int)
    (h : lookupCache l1 k = none) : lookupCache (l1 ++ l2) k = lookupCache l2 k := by
  induction l1 with
  | nil => rfl
  | cons p rest ih =>
    by_cases hp : p.1 = k
    · rw [lookupCache, if_pos hp] at h
      cases h
    · rw [lookupCache, if_neg hp] at h
      rw [List.cons_append, lookupCache, if_neg hp]
      exact ih h

theorem lookupCache_append_some (l1 l2 : List ((Nat × Int) × Nat)) (k : Nat × Int)
    (v : Nat) (h : lookupCache l1 k = some v) :
    lookupCache (l1 ++ l2) k = some v := by
  induction l1 with
  | nil => cases h
  | cons p rest ih =>
    by_cases hp : p.1 = k
    · rw [lookupCache, if_pos hp] at h
      rw [List.cons_append, lookupCache, if_pos hp]
      exact h
    · rw [lookupCache, if_neg hp] at h
      rw [List.cons_append, lookupCache, if_neg hp]
      exact ih h

theorem countKey_append (l1 l2 : List (Nat × Int)) (k : Nat × Int) :
    countKey (l1 ++ l2) k = countKey l1 k + countKey l2 k := by
  induction l1 with
  | nil => simp [countKey]
  | cons x rest ih =>
    rw [List.cons_append, countKey, countKey, ih]
    ring

theorem gOCD_cached (solver : CompMap → Int → CompMap) (s : CoreState)
    (p : Nat) (t : Int) (d : Nat) (h : lookupCache s.cache (p, t) = some d) :
    getOrComputeDaughter solver s p t = (d, s) := by
  simp only [getOrComputeDaughter, h]

theorem gOCD_lookup_after (solver : CompMap → Int → CompMap) (s : CoreState)
    (p : Nat) (t : Int) :
    lookupCache (getOrComputeDaughter solver s p t).2.cache (p, t)
      = some (getOrComputeDaughter solver s p t).1 := by
  cases hl : lookupCache s.cache (p, t) with
  | some d =>
    simp only [getOrComputeDaughter, hl]
  | none =>
    simp only [getOrComputeDaughter, hl]
    rw [lookupCache_append_none _ _ _ hl, lookupCache]
    simp

theorem gOCD_second (solver : CompMap → Int → CompMap) (s : CoreState)
    (p : Nat) (t : Int) :
    getOrComputeDaughter solver (getOrComputeDaughter solver s p t).2 p t
      = getOrComputeDaughter solver s p t := by
  rw [gOCD_cached solver (getOrComputeDaughter solver s p t).2 p t
      (getOrComputeDaughter solver s p t).1 (gOCD_lookup_after solver s p t)]

theorem gOCD_cacheInv (solver : CompMap → Int → CompMap) (s : CoreState)
    (p : Nat) (t : Int) (hinv : CacheInv s) :
    CacheInv (getOrComputeDaughter solver s p t).2 := by
  cases hl : lookupCache s.cache (p, t) with
  | some d =>
    rw [gOCD_cached solver s p t d hl]
    exact hinv
  | none =>
    intro k
    have hbase := hinv k
    simp only [getOrComputeDaughter, hl]
    rw [countKey_append]
    by_cases hk : k = (p, t)
    · subst hk
      rw [hl] at hbase
      simp only [Option.isSome_none, Bool.false_eq_true, if_false] at hbase
      rw [hbase, lookupCache_append_none _ _ _ hl]
      simp [countKey, lookupCache]
    · have hsingle : countKey [(p, t)] k = 0 := by
        simp [countKey, Ne.symm hk]
      rw [hsingle]
      cases hck : lookupCache s.cache k with
      | some v =>
        rw [lookupCache_append_some _ _ _ _ hck]
        rw [hck] at hbase
        simpa using hbase
      | none =>
        rw [lookupCache_append_none _ _ _ hck]
        rw [hck] at hbase
        have hnone : lookupCache [((p, t), s.arena.length)] k = none := by
          simp [lookupCache, Ne.symm hk]
        rw [hnone]
        simpa using hbase

theorem applyOp_cacheInv (solver : CompMap → Int → CompMap) (s : CoreState)
    (op : Op) (hinv : CacheInv s) : CacheInv (applyOp solver s op) := by
  cases op with
  | add h1 h2 => exact hinv
  | sub h1 h2 =>
    simp only [applyOp]
    cases hsub : subtractComp (arenaGet s h1) (arenaGet s h2) with
    | ok d => exact hinv
    | error e => exact hinv
  | mult h f => exact hinv
  | minimize h => exact hinv
  | decay h t => exact gOCD_cacheInv solver s h t hinv
  | record h =>
    by_cases hid : (arenaGet s h).ID = 0
    · rw [show applyOp solver s (Op.record h) = (recordState s h).2 from rfl,
        recordState_new s h hid]
      exact hinv
    · rw [show applyOp solver s (Op.record h) = (recordState s h).2 from rfl,
        recordState_not_new s h hid]
      exact hinv
  | load name m atomBasis =>
    simp only [applyOp, loadRecipe]
    cases hdup : (s.recipes.map Prod.fst).contains name with
    | true => exact hinv
    | false =>
      cases hcon : construct m atomBasis with
      | error e => exact hinv
      | ok cc => exact hinv

theorem runOps_cacheInv (solver : CompMap → Int → CompMap) (ops : List Op)
    (s : CoreState) (hinv : CacheInv s) : CacheInv (runOps solver s ops) := by
  induction ops generalizing s with
  | nil => exact hinv
  | cons op rest ih => exact ih _ (applyOp_cacheInv solver s op hinv)

/-- C1: after any whole run from the initial state, calling the
    decay-cache lookup twice with the same (parent, elapsed time) key
    returns the identical composition both times — the second call is a
    pure cache hit returning the same daughter index and leaving the
    state untouched — and the external DecaySolver has been invoked
    exactly once for that key across the whole run. -/
theorem c1_daughter_memoized (solver : CompMap → Int → CompMap) (ops : List Op)
    (p : Nat) (t : Int) :
    getOrComputeDaughter solver
        (getOrComputeDaughter solver (runOps solver initState ops) p t).2 p t
      = getOrComputeDaughter solver (runOps solver initState ops) p t
  ∧ countKey (getOrComputeDaughter solver
        (runOps solver initState ops) p t).2.solverLog (p, t) = 1 := by
  have hinv0 : CacheInv initState := by
    intro k
    simp [initState, countKey, lookupCache]
  have hinv := runOps_cacheInv solver ops initState hinv0
  constructor
  · exact gOCD_second solver _ p t
  · cases hl : lookupCache (runOps solver initState ops).cache (p, t) with
    | some d =>
      rw [gOCD_cached solver _ p t d hl]
      have hbase := hinv (p, t)
      rw [hl] at hbase
      simpa using hbase
    | none =>
      have hbase := hinv (p, t)
      rw [hl] at hbase
      simp only [Option.isSome_none, Bool.false_eq_true, if_false] at hbase
      simp only [getOrComputeDaughter, hl]
      rw [countKey_append, hbase]
      simp [countKey]

/-- Witness for C2: in a concrete run performing one record, the ID 1 is
    assigned and is at least 1. -/
theorem c2_state_ids_monotonic_witness :
    1 ∈ (runOps solv0 initState [Op.record 0]).assigned ∧ (1 : Int) ≤ 1 :=
  ⟨by decide, (c2_state_ids_monotonic solv0 [Op.record 0]).2.1 1 (by decide)⟩
